import Mathlib

/-!
Shallow embedding of the entity-resolution core of the
premier-league-fantasy-draft-assistant repository:
`src/data/processors/player_mapper.py` (PlayerMapper) and the
team-normalization helper of `src/data/processors/data_cleaner.py`
(DataCleaner.normalize_team_names), together with the name-similarity
scorer built on difflib.SequenceMatcher.ratio.
-/

set_option maxRecDepth 100000

/-- Decidable equality for `Except`, used to evaluate runs of the mapper on
concrete inputs. -/
instance {ε α : Type} [DecidableEq ε] [DecidableEq α] :
    DecidableEq (Except ε α) := fun
  | .error a, .error b =>
      if h : a = b then .isTrue (by rw [h]) else .isFalse (by simp [h])
  | .error _, .ok _ => .isFalse (by simp)
  | .ok _, .error _ => .isFalse (by simp)
  | .ok a, .ok b =>
      if h : a = b then .isTrue (by rw [h]) else .isFalse (by simp [h])

namespace FPL

/-- Length of the common prefix run of two character lists: the size of the
matching block of `difflib` starting at the given positions. -/
def runLen : List Char → List Char → Nat
  | x :: xs, y :: ys => if x = y then runLen xs ys + 1 else 0
  | _, _ => 0

/-- Scan candidate start positions in order, keeping the first strictly
longer matching block, as `SequenceMatcher.find_longest_match` does
(iteration over `i` ascending, then `j` ascending, replacement only on
strictly greater size). -/
def scanCands (a b : List Char) : List (Nat × Nat) → Nat × Nat × Nat → Nat × Nat × Nat
  | [], acc => acc
  | ij :: rest, acc =>
    let k := runLen (a.drop ij.1) (b.drop ij.2)
    scanCands a b rest (if acc.2.2 < k then (ij.1, ij.2, k) else acc)

/-- All start-position pairs, `i` outer ascending and `j` inner ascending. -/
def candPairs (la lb : Nat) : List (Nat × Nat) :=
  (List.range la).flatMap fun i => (List.range lb).map fun j => (i, j)

/-- Leftmost (in `a`, then in `b`) longest matching block of the two
character lists: the semantics of `find_longest_match` with no junk
(strings here are far below the autojunk length of 200). -/
def bestMatch (a b : List Char) : Nat × Nat × Nat :=
  scanCands a b (candPairs a.length b.length) (0, 0, 0)

/-- Total number of matched characters over the recursive decomposition of
`get_matching_blocks`: take the longest block, recurse left and right of
it.  The fuel argument dominates the length of the first list, which
strictly decreases on every recursive call with a nonzero block. -/
def matchTotal : Nat → List Char → List Char → Nat
  | 0, _, _ => 0
  | fuel + 1, a, b =>
    let m := bestMatch a b
    if m.2.2 = 0 then 0
    else
      matchTotal fuel (a.take m.1) (b.take m.2.1) + m.2.2 +
        matchTotal fuel (a.drop (m.1 + m.2.2)) (b.drop (m.2.1 + m.2.2))

/-- Ratio of `difflib.SequenceMatcher`: twice the matched total over the sum
of lengths, and 1 when both strings are empty (`_calculate_ratio`). -/
def similarityRatio (a b : List Char) : ℚ :=
  if a.length + b.length = 0 then 1
  else (2 * matchTotal (a.length + 1) a b : ℚ) / (a.length + b.length)

/-- Python `str.lower()` restricted to the ASCII letters that occur in the
repository's data (structural so the kernel can evaluate it). -/
def pyLower (s : String) : String := ⟨s.data.map Char.toLower⟩

/-- Python `str.strip()`: drop whitespace from both ends. -/
def pyStrip (s : String) : String :=
  ⟨((s.data.dropWhile Char.isWhitespace).reverse.dropWhile Char.isWhitespace).reverse⟩

/-- Name cleaning of `PlayerMapper.get_name_similarity`:
`str(name).lower().strip()`. -/
def cleanName (s : String) : String := pyStrip (pyLower s)

/-- Similarity of `PlayerMapper.get_name_similarity` on string inputs. -/
def get_name_similarity (n1 n2 : String) : ℚ :=
  similarityRatio (cleanName n1).data (cleanName n2).data

/-- Python values as they reach `get_name_similarity`: the function calls
`str(...)` on its arguments, so non-string values are coerced to their
string representation rather than failing. -/
inductive PyVal where
  | str (s : String)
  | int (n : Int)
  | noneV
deriving DecidableEq, Repr

/-- Python `str(...)` on the modelled values. -/
def pyToStr : PyVal → String
  | .str s => s
  | .int n => toString n
  | .noneV => "None"

/-- Similarity of `PlayerMapper.get_name_similarity` on arbitrary inputs,
after the `str(...)` coercion of the source. -/
def get_name_similarity_py (a b : PyVal) : ℚ :=
  get_name_similarity (pyToStr a) (pyToStr b)

/-- Alias table of `DataCleaner.normalize_team_names` (the `team_mapping`
dict, in declaration order). -/
def team_mapping : List (String × String) :=
  [("manchester united", "man utd"),
   ("manchester city", "man city"),
   ("newcastle united", "newcastle"),
   ("tottenham", "spurs"),
   ("tottenham hotspur", "spurs"),
   ("wolverhampton", "wolves"),
   ("wolverhampton wanderers", "wolves"),
   ("brighton", "brighton"),
   ("brighton and hove albion", "brighton"),
   ("brighton & hove albion", "brighton"),
   ("leicester", "leicester"),
   ("leicester city", "leicester")]

/-- Per-value normalization applied by `DataCleaner.normalize_team_names`
to each entry of the team column:
`team_mapping.get(str(x).lower(), x)` for a non-null value `x`. -/
def normalize_team_name (x : String) : String :=
  (team_mapping.lookup (pyLower x)).getD x

/-- Python `int(s)` on a string: strip whitespace, optional sign, then
decimal digits; `none` models the `ValueError` raise on anything else. -/
def parsePyInt (s : String) : Option Int :=
  let t := (pyStrip s).data
  let core : Option (List Char) :=
    match t with
    | '+' :: rest => some rest
    | '-' :: rest => some rest
    | l => some l
  match core with
  | some digits =>
      if digits ≠ [] ∧ digits.all Char.isDigit then
        let v : Int := digits.foldl (fun acc c => acc * 10 + (c.toNat - '0'.toNat : Nat)) 0
        some (if t.head? = some '-' then -v else v)
      else none
  | Option.none => none

/-- Row of the FPL table, with the columns `map_players` reads. -/
structure FplPlayer where
  id : Int
  name : String
  team : String
deriving DecidableEq, Repr

/-- Row of the Understat table, with the columns `map_players` reads. -/
structure UstPlayer where
  id : String
  name : String
  team : String
deriving DecidableEq, Repr

/-- Row of the mapping table built by `map_players` (the dict literals
appended to `mappings`). -/
structure MapEntry where
  fpl_id : Int
  understat_id : String
  fpl_name : String
  understat_name : String
  matching_type : String
  similarity : ℚ
deriving DecidableEq, Repr

/-- Uncaught Python exceptions that `map_players` can raise. -/
inductive PyErr where
  | valueError
  | keyError
deriving DecidableEq, Repr

/-- Keys of the manual-mapping dict passed through `int(...)`, in dict
order, paired with their values; `none` when some key raises
`ValueError`. -/
def parseManual : List (String × String) → Option (List (Int × String))
  | [] => some []
  | kv :: rest =>
      match parsePyInt kv.1, parseManual rest with
      | some i, some t => some ((i, kv.2) :: t)
      | _, _ => Option.none

/-- Manual pass of `map_players`: for each overlay pair, emit an entry when
both the parsed FPL id and the Understat id are found in their tables
(first matching row, as `.iloc[0]`); stale pairs are skipped. -/
def manualEntries (fpl : List FplPlayer) (ust : List UstPlayer)
    (parsed : List (Int × String)) : List MapEntry :=
  parsed.filterMap fun iv =>
    match fpl.find? (fun p => p.id == iv.1) with
    | some p =>
        match ust.find? (fun u => u.id == iv.2) with
        | some u => some ⟨iv.1, iv.2, p.name, u.name, "manual", 1⟩
        | Option.none => Option.none
    | Option.none => Option.none

/-- Primary rows not consumed by any manual-mapping key
(`~fpl_df[...].isin(matched_fpl_ids)`). -/
def remainingFpl (fpl : List FplPlayer) (parsed : List (Int × String)) :
    List FplPlayer :=
  fpl.filter fun p => !(parsed.map Prod.fst).contains p.id

/-- Secondary rows not consumed by any manual-mapping value
(`~understat_df[...].isin(matched_understat_ids)`). -/
def remainingUst (ust : List UstPlayer) (manual : List (String × String)) :
    List UstPlayer :=
  ust.filter fun u => !(manual.map Prod.snd).contains u.id

/-- One step of the best-candidate fold of the automated pass: replace the
running best on strictly greater similarity
(`if similarity > best_similarity`). -/
def bestStep (name : String) (acc : Option UstPlayer × ℚ) (u : UstPlayer) :
    Option UstPlayer × ℚ :=
  let s := get_name_similarity name u.name
  if acc.2 < s then (some u, s) else acc

/-- Best-candidate fold of the automated pass: start from
`best_match = None, best_similarity = 0` and fold over the candidates in
table order. -/
def bestCand (name : String) (cands : List UstPlayer) : Option UstPlayer × ℚ :=
  cands.foldl (bestStep name) (Option.none, 0)

/-- Automated entry produced for one remaining primary row: candidates are
the remaining secondary rows with equal normalized team, and the best one
is emitted when its similarity reaches the threshold. -/
def autoEntryFor (thr : ℚ) (remU : List UstPlayer) (p : FplPlayer) :
    Option MapEntry :=
  let cands := remU.filter fun u =>
    normalize_team_name u.team == normalize_team_name p.team
  match bestCand p.name cands with
  | (some u, s) =>
      if thr ≤ s then some ⟨p.id, u.id, p.name, u.name, "automated", s⟩
      else Option.none
  | (Option.none, _) => Option.none

/-- Automated pass over all remaining primary rows, in table order. -/
def autoEntries (thr : ℚ) (remU : List UstPlayer) (remF : List FplPlayer) :
    List MapEntry :=
  remF.filterMap (autoEntryFor thr remU)

/-- The whole of `PlayerMapper.map_players`.  An empty input table
short-circuits to an empty result; a non-integer manual key raises
`ValueError` at `int(fpl_id_str)`; and when both tables are non-empty but
no mapping at all was produced, the final logging line evaluates
`mappings_df['matching_type']` on a DataFrame with no columns and raises
`KeyError`. -/
def map_players (fpl : List FplPlayer) (ust : List UstPlayer)
    (manual : List (String × String)) (thr : ℚ) :
    Except PyErr (List MapEntry) :=
  if fpl.isEmpty || ust.isEmpty then .ok []
  else
    match parseManual manual with
    | Option.none => .error .valueError
    | some parsed =>
        if (manualEntries fpl ust parsed ++
            autoEntries thr (remainingUst ust manual)
              (remainingFpl fpl parsed)).isEmpty then
          .error .keyError
        else
          .ok (manualEntries fpl ust parsed ++
            autoEntries thr (remainingUst ust manual) (remainingFpl fpl parsed))

theorem runLen_le_left (xs ys : List Char) : runLen xs ys ≤ xs.length := by
  induction xs generalizing ys with
  | nil => simp [runLen]
  | cons x xs ih =>
    cases ys with
    | nil => simp [runLen]
    | cons y ys =>
      simp only [runLen, List.length_cons]
      split
      · exact Nat.succ_le_succ (ih ys)
      · exact Nat.zero_le _

theorem runLen_le_right (xs ys : List Char) : runLen xs ys ≤ ys.length := by
  induction xs generalizing ys with
  | nil => simp [runLen]
  | cons x xs ih =>
    cases ys with
    | nil => simp [runLen]
    | cons y ys =>
      simp only [runLen, List.length_cons]
      split
      · exact Nat.succ_le_succ (ih ys)
      · exact Nat.zero_le _

theorem runLen_self (l : List Char) : runLen l l = l.length := by
  induction l with
  | nil => simp [runLen]
  | cons x xs ih => simp [runLen, ih]

theorem runLen_pos (xs ys : List Char) (h : 0 < runLen xs ys) :
    ∃ c, c ∈ xs ∧ c ∈ ys := by
  cases xs with
  | nil => simp [runLen] at h
  | cons x xs =>
    cases ys with
    | nil => simp [runLen] at h
    | cons y ys =>
      simp only [runLen] at h
      by_cases hxy : x = y
      · exact ⟨x, List.mem_cons_self .., hxy ▸ List.mem_cons_self ..⟩
      · rw [if_neg hxy] at h
        omega

theorem scanCands_stable (a b : List Char) (l : List (Nat × Nat))
    (acc : Nat × Nat × Nat)
    (h : ∀ ij ∈ l, runLen (a.drop ij.1) (b.drop ij.2) ≤ acc.2.2) :
    scanCands a b l acc = acc := by
  induction l with
  | nil => rfl
  | cons ij rest ih =>
    simp only [scanCands]
    rw [if_neg (Nat.not_lt.mpr (h ij (List.mem_cons_self ..)))]
    exact ih fun x hx => h x (List.mem_cons_of_mem _ hx)

theorem scanCands_shape (a b : List Char) (l : List (Nat × Nat))
    (acc : Nat × Nat × Nat) :
    scanCands a b l acc = acc ∨
      ∃ ij ∈ l,
        scanCands a b l acc = (ij.1, ij.2, runLen (a.drop ij.1) (b.drop ij.2)) := by
  induction l generalizing acc with
  | nil => left; rfl
  | cons ij rest ih =>
    simp only [scanCands]
    by_cases hc : acc.2.2 < runLen (a.drop ij.1) (b.drop ij.2)
    · rw [if_pos hc]
      rcases ih (ij.1, ij.2, runLen (a.drop ij.1) (b.drop ij.2)) with h | ⟨ij', hm, h⟩
      · right; exact ⟨ij, List.mem_cons_self .., h⟩
      · right; exact ⟨ij', List.mem_cons_of_mem _ hm, h⟩
    · rw [if_neg hc]
      rcases ih acc with h | ⟨ij', hm, h⟩
      · left; exact h
      · right; exact ⟨ij', List.mem_cons_of_mem _ hm, h⟩

theorem candPairs_mem (la lb : Nat) (ij : Nat × Nat) (h : ij ∈ candPairs la lb) :
    ij.1 < la ∧ ij.2 < lb := by
  simp only [candPairs, List.mem_flatMap, List.mem_map, List.mem_range] at h
  obtain ⟨i, hi, j, hj, rfl⟩ := h
  exact ⟨hi, hj⟩

theorem bestMatch_shape (a b : List Char) :
    bestMatch a b = (0, 0, 0) ∨
      ∃ i j, i < a.length ∧ j < b.length ∧
        bestMatch a b = (i, j, runLen (a.drop i) (b.drop j)) := by
  rcases scanCands_shape a b (candPairs a.length b.length) (0, 0, 0) with h | ⟨ij, hm, h⟩
  · left; exact h
  · right
    obtain ⟨h1, h2⟩ := candPairs_mem _ _ _ hm
    exact ⟨ij.1, ij.2, h1, h2, h⟩

theorem candPairs_head (la lb : Nat) (h1 : 0 < la) (h2 : 0 < lb) :
    ∃ L, candPairs la lb = (0, 0) :: L := by
  obtain ⟨m, rfl⟩ : ∃ m, la = m + 1 := ⟨la - 1, by omega⟩
  obtain ⟨k, rfl⟩ : ∃ k, lb = k + 1 := ⟨lb - 1, by omega⟩
  refine ⟨((List.range k).map Nat.succ).map (fun j => ((0 : Nat), j)) ++
    ((List.range m).map Nat.succ).flatMap
      (fun i => (List.range (k + 1)).map fun j => (i, j)), ?_⟩
  rw [candPairs, List.range_succ_eq_map, List.flatMap_cons]
  rw [List.range_succ_eq_map, List.map_cons, List.cons_append]

theorem bestMatch_self (l : List Char) (h : l ≠ []) :
    bestMatch l l = (0, 0, l.length) := by
  obtain ⟨L, hL⟩ := candPairs_head l.length l.length
    (List.length_pos.mpr h) (List.length_pos.mpr h)
  rw [bestMatch, hL]
  simp only [scanCands, List.drop_zero, runLen_self]
  rw [if_pos (List.length_pos.mpr h)]
  exact scanCands_stable _ _ _ _ fun ij _ =>
    (runLen_le_left _ _).trans ((List.length_drop ..) ▸ Nat.sub_le _ _)

theorem matchTotal_le (fuel : Nat) (a b : List Char) :
    matchTotal fuel a b ≤ a.length ∧ matchTotal fuel a b ≤ b.length := by
  induction fuel generalizing a b with
  | zero => simp [matchTotal]
  | succ n ih =>
    simp only [matchTotal]
    rcases bestMatch_shape a b with h | ⟨i, j, hi, hj, h⟩
    · rw [h]; simp
    · rw [h]
      dsimp only
      by_cases hk : runLen (a.drop i) (b.drop j) = 0
      · simp [hk]
      · rw [if_neg hk]
        have h1 := ih (a.take i) (b.take j)
        have h2 := ih (a.drop (i + runLen (a.drop i) (b.drop j)))
          (b.drop (j + runLen (a.drop i) (b.drop j)))
        have hka : runLen (a.drop i) (b.drop j) ≤ a.length - i :=
          (runLen_le_left _ _).trans_eq (List.length_drop ..)
        have hkb : runLen (a.drop i) (b.drop j) ≤ b.length - j :=
          (runLen_le_right _ _).trans_eq (List.length_drop ..)
        simp only [List.length_take, List.length_drop] at h1 h2
        omega

theorem matchTotal_nil (fuel : Nat) (b : List Char) :
    matchTotal fuel [] b = 0 := by
  cases fuel with
  | zero => rfl
  | succ m =>
    have : bestMatch [] b = (0, 0, 0) := by
      rw [bestMatch]
      have : candPairs ([] : List Char).length b.length = [] := by
        simp [candPairs]
      rw [this]
      rfl
    simp [matchTotal, this]

theorem matchTotal_self (l : List Char) :
    matchTotal (l.length + 1) l l = l.length := by
  by_cases h : l = []
  · subst h; exact matchTotal_nil 1 []
  · have hfe : l.length ≠ 0 := by
      simpa using h
    simp only [matchTotal, bestMatch_self l h]
    simp [hfe, matchTotal_nil]

theorem matchTotal_disjoint (fuel : Nat) (a b : List Char)
    (h : ∀ c ∈ a, c ∉ b) : matchTotal fuel a b = 0 := by
  cases fuel with
  | zero => rfl
  | succ n =>
    simp only [matchTotal]
    rcases bestMatch_shape a b with hb | ⟨i, j, hi, hj, hb⟩
    · rw [hb]; simp
    · rw [hb]
      have hk : runLen (a.drop i) (b.drop j) = 0 := by
        by_contra hk
        obtain ⟨c, hca, hcb⟩ := runLen_pos _ _ (Nat.pos_of_ne_zero hk)
        exact h c (List.mem_of_mem_drop hca) (List.mem_of_mem_drop hcb)
      simp [hk]

theorem similarityRatio_nonneg (a b : List Char) : 0 ≤ similarityRatio a b := by
  rw [similarityRatio]
  split
  · norm_num
  · positivity

theorem similarityRatio_le_one (a b : List Char) : similarityRatio a b ≤ 1 := by
  rw [similarityRatio]
  split
  · norm_num
  · rename_i h
    have h1 := matchTotal_le (a.length + 1) a b
    have hpos : (0 : ℚ) < (a.length : ℚ) + (b.length : ℚ) := by
      exact_mod_cast Nat.pos_of_ne_zero h
    rw [div_le_one hpos]
    have h2 : 2 * matchTotal (a.length + 1) a b ≤ a.length + b.length := by
      omega
    exact_mod_cast h2

theorem similarityRatio_self (l : List Char) : similarityRatio l l = 1 := by
  rw [similarityRatio]
  split
  · rfl
  · rename_i h
    rw [matchTotal_self]
    have hpos : (0 : ℚ) < (l.length : ℚ) + (l.length : ℚ) := by
      exact_mod_cast Nat.pos_of_ne_zero h
    rw [two_mul ((l.length : ℚ)), div_self (ne_of_gt hpos)]

theorem similarityRatio_disjoint (a b : List Char)
    (h : ∀ c ∈ a, c ∉ b) (hne : a.length + b.length ≠ 0) :
    similarityRatio a b = 0 := by
  rw [similarityRatio, if_neg hne, matchTotal_disjoint _ _ _ h]
  simp

/-- Invariant of the best-candidate accumulator: it is the initial
`(None, 0)` pair or a seen candidate together with its (positive)
similarity. -/
def CandInv (name : String) (S : List UstPlayer) (acc : Option UstPlayer × ℚ) :
    Prop :=
  acc = (Option.none, 0) ∨
    ∃ u ∈ S, acc = (some u, get_name_similarity name u.name) ∧
      0 < get_name_similarity name u.name

theorem candInv_foldl (name : String) (S : List UstPlayer) :
    ∀ (l : List UstPlayer) (acc : Option UstPlayer × ℚ),
      (∀ u ∈ l, u ∈ S) → CandInv name S acc →
      CandInv name S (l.foldl (bestStep name) acc) := by
  intro l
  induction l with
  | nil => intro acc _ h; exact h
  | cons u rest ih =>
    intro acc hsub h
    rw [List.foldl_cons]
    apply ih _ fun x hx => hsub x (List.mem_cons_of_mem _ hx)
    rw [bestStep]
    by_cases hlt : acc.2 < get_name_similarity name u.name
    · simp only [if_pos hlt]
      right
      refine ⟨u, hsub u (List.mem_cons_self ..), rfl, ?_⟩
      rcases h with h | ⟨v, _, hv, hpos⟩
      · rw [h] at hlt
        exact hlt
      · rw [hv] at hlt
        exact lt_trans hpos hlt
    · simp only [if_neg hlt]
      exact h

theorem bestCand_some (name : String) (cands : List UstPlayer)
    (u : UstPlayer) (s : ℚ) (h : bestCand name cands = (some u, s)) :
    u ∈ cands ∧ s = get_name_similarity name u.name ∧ 0 < s := by
  have hinv := candInv_foldl name cands cands (Option.none, 0)
    (fun _ hx => hx) (Or.inl rfl)
  rw [bestCand] at h
  rw [h] at hinv
  rcases hinv with h' | ⟨v, hm, hv, hpos⟩
  · simp at h'
  · have h1 : u = v := by
      have := congrArg Prod.fst hv
      simpa using this
    have h2 : s = get_name_similarity name v.name := by
      have := congrArg Prod.snd hv
      simpa using this
    subst h1
    exact ⟨hm, h2, h2 ▸ hpos⟩

theorem autoEntryFor_some (thr : ℚ) (remU : List UstPlayer) (p : FplPlayer)
    (e : MapEntry) (h : autoEntryFor thr remU p = some e) :
    e.fpl_id = p.id ∧ e.fpl_name = p.name ∧ e.matching_type = "automated" ∧
    thr ≤ e.similarity ∧ 0 < e.similarity ∧
    ∃ u ∈ remU, normalize_team_name u.team = normalize_team_name p.team ∧
      e.understat_id = u.id ∧ e.understat_name = u.name ∧
      e.similarity = get_name_similarity p.name u.name := by
  rw [autoEntryFor] at h
  split at h
  · rename_i u s heq
    split at h
    · rename_i hthr
      obtain ⟨hmem, hs, hpos⟩ := bestCand_some _ _ _ _ heq
      obtain ⟨hu, hteam⟩ := List.mem_filter.mp hmem
      cases h
      refine ⟨rfl, rfl, rfl, hthr, hpos, u, hu, ?_, rfl, rfl, hs⟩
      exact beq_iff_eq.mp hteam
    · cases h
  · cases h

theorem manualEntries_mem (fpl : List FplPlayer) (ust : List UstPlayer)
    (parsed : List (Int × String)) (e : MapEntry)
    (h : e ∈ manualEntries fpl ust parsed) :
    ∃ iv ∈ parsed, ∃ p, fpl.find? (fun q => q.id == iv.1) = some p ∧
      ∃ u, ust.find? (fun w => w.id == iv.2) = some u ∧
      e = ⟨iv.1, iv.2, p.name, u.name, "manual", 1⟩ := by
  rw [manualEntries, List.mem_filterMap] at h
  obtain ⟨iv, hm, hf⟩ := h
  split at hf
  · rename_i p hp
    split at hf
    · rename_i u hu
      cases hf
      exact ⟨iv, hm, p, hp, u, hu, rfl⟩
    · cases hf
  · cases hf

theorem map_players_ok (fpl : List FplPlayer) (ust : List UstPlayer)
    (manual : List (String × String)) (thr : ℚ) (res : List MapEntry)
    (h : map_players fpl ust manual thr = .ok res) :
    res = [] ∨
      ∃ parsed, parseManual manual = some parsed ∧
        res = manualEntries fpl ust parsed ++
          autoEntries thr (remainingUst ust manual) (remainingFpl fpl parsed) := by
  rw [map_players] at h
  split at h
  · left
    cases h
    rfl
  · split at h
    · cases h
    · rename_i parsed hp
      split at h
      · cases h
      · right
        refine ⟨parsed, hp, ?_⟩
        cases h
        rfl

theorem remainingFpl_mem (fpl : List FplPlayer) (parsed : List (Int × String))
    (p : FplPlayer) (h : p ∈ remainingFpl fpl parsed) :
    p ∈ fpl ∧ ∀ iv ∈ parsed, p.id ≠ iv.1 := by
  rw [remainingFpl, List.mem_filter] at h
  obtain ⟨hp, hc⟩ := h
  refine ⟨hp, fun iv hm heq => ?_⟩
  simp at hc
  apply hc
  rw [heq]
  exact hm

theorem remainingUst_mem (ust : List UstPlayer) (manual : List (String × String))
    (u : UstPlayer) (h : u ∈ remainingUst ust manual) :
    u ∈ ust ∧ ∀ kv ∈ manual, u.id ≠ kv.2 := by
  rw [remainingUst, List.mem_filter] at h
  obtain ⟨hu, hc⟩ := h
  refine ⟨hu, fun kv hm heq => ?_⟩
  simp at hc
  apply hc
  rw [heq]
  exact hm

theorem autoEntries_mem (thr : ℚ) (remU : List UstPlayer)
    (remF : List FplPlayer) (e : MapEntry) (h : e ∈ autoEntries thr remU remF) :
    ∃ p ∈ remF, autoEntryFor thr remU p = some e := by
  rw [autoEntries, List.mem_filterMap] at h
  exact h

/-- States of the persisted manual-mapping overlay file as
`PlayerMapper._load_mappings` can encounter it. -/
inductive MappingFile where
  | missing
  | unreadable
  | stored (m : List (String × String))

/-- Embedding of `PlayerMapper._load_mappings`: `self.manual_mappings`
starts out empty; a missing file leaves it empty (the `os.path.exists`
guard), any exception while reading or parsing is caught and resets it to
empty, and only a readable well-formed file replaces it. -/
def load_mappings : MappingFile → List (String × String)
  | .missing => []
  | .unreadable => []
  | .stored m => m

theorem parseManual_mem_rev (manual : List (String × String))
    (parsed : List (Int × String)) (h : parseManual manual = some parsed) :
    ∀ iv ∈ parsed, ∃ kv ∈ manual, parsePyInt kv.1 = some iv.1 ∧ kv.2 = iv.2 := by
  induction manual generalizing parsed with
  | nil =>
    cases h
    intro iv hm
    cases hm
  | cons kv rest ih =>
    rw [parseManual] at h
    split at h
    · rename_i i t hi ht
      cases h
      intro iv hm
      rcases List.mem_cons.mp hm with rfl | hm'
      · exact ⟨kv, List.mem_cons_self .., hi, rfl⟩
      · obtain ⟨kv', hk, hp, hv⟩ := ih t ht iv hm'
        exact ⟨kv', List.mem_cons_of_mem _ hk, hp, hv⟩
    · cases h

theorem parseManual_mem_fwd (manual : List (String × String))
    (parsed : List (Int × String)) (h : parseManual manual = some parsed) :
    ∀ kv ∈ manual, ∀ i, parsePyInt kv.1 = some i → (i, kv.2) ∈ parsed := by
  induction manual generalizing parsed with
  | nil =>
    intro kv hm
    cases hm
  | cons kv0 rest ih =>
    rw [parseManual] at h
    split at h
    · rename_i i0 t hi0 ht
      cases h
      intro kv hm i hp
      rcases List.mem_cons.mp hm with rfl | hm'
      · rw [hp] at hi0
        cases hi0
        exact List.mem_cons_self ..
      · exact List.mem_cons_of_mem _ (ih t ht kv hm' i hp)
    · cases h

theorem find?_id_fpl (fpl : List FplPlayer) (i : Int) (p : FplPlayer)
    (h : fpl.find? (fun q => q.id == i) = some p) : p ∈ fpl ∧ p.id = i := by
  refine ⟨List.mem_of_find?_eq_some h, ?_⟩
  have := List.find?_some h
  exact beq_iff_eq.mp this

theorem find?_id_ust (ust : List UstPlayer) (v : String) (u : UstPlayer)
    (h : ust.find? (fun w => w.id == v) = some u) : u ∈ ust ∧ u.id = v := by
  refine ⟨List.mem_of_find?_eq_some h, ?_⟩
  have := List.find?_some h
  exact beq_iff_eq.mp this

theorem nodup_filterMap_ids {α β γ : Type} (f : α → Option β) (g : β → γ)
    (idx : α → γ) (hgf : ∀ a b, f a = some b → g b = idx a) :
    ∀ l : List α, (l.map idx).Nodup → ((l.filterMap f).map g).Nodup := by
  intro l
  induction l with
  | nil => intro _; simp
  | cons a rest ih =>
    intro h
    rw [List.map_cons, List.nodup_cons] at h
    obtain ⟨hni, hrest⟩ := h
    rw [List.filterMap_cons]
    cases hfa : f a with
    | none => exact ih hrest
    | some b =>
      rw [List.map_cons, List.nodup_cons]
      refine ⟨?_, ih hrest⟩
      intro hmem
      apply hni
      rw [List.mem_map] at hmem
      obtain ⟨b', hb', hgb'⟩ := hmem
      rw [List.mem_filterMap] at hb'
      obtain ⟨a', ha', hfa'⟩ := hb'
      have : g b' = idx a' := hgf a' b' hfa'
      rw [List.mem_map]
      exact ⟨a', ha', by rw [← this, hgb', hgf a b hfa]⟩

theorem manualEntries_id_sub (fpl : List FplPlayer) (ust : List UstPlayer)
    (parsed : List (Int × String)) (e : MapEntry)
    (h : e ∈ manualEntries fpl ust parsed) : e.fpl_id ∈ parsed.map Prod.fst := by
  obtain ⟨iv, hm, p, _, u, _, rfl⟩ := manualEntries_mem _ _ _ _ h
  exact List.mem_map_of_mem Prod.fst hm

theorem parseManual_nil : parseManual [] = some [] := rfl

theorem manualEntries_nil (fpl : List FplPlayer) (ust : List UstPlayer) :
    manualEntries fpl ust [] = [] := rfl

theorem remainingFpl_nil (fpl : List FplPlayer) : remainingFpl fpl [] = fpl := by
  simp [remainingFpl]

theorem remainingUst_nil (ust : List UstPlayer) : remainingUst ust [] = ust := by
  simp [remainingUst]

/-- C1: the spec's De Bruyne example demands that a run in which both
tables are non-empty and no match is found return an empty mapping table;
the code instead reaches the final logging line with an empty, column-less
`mappings` DataFrame and raises `KeyError('matching_type')`.  This theorem
evaluates the embedding at exactly that input: the run is an uncaught
exception, not an empty result. -/
theorem C1_crash_on_empty_mapping_result :
    map_players [⟨2, "Kevin De Bruyne", "Man City"⟩]
      [⟨"u2", "K. De Bruyne", "Manchester City"⟩] [] (4 / 5) =
    .error .keyError := by with_unfolding_all decide

/-- C2 counterexample: "spurs" is absent from the alias table, so the claim
says `normalize_team_names` maps "Spurs" to its lower-cased form "spurs";
the code's fallback returns the original value unchanged, and it never
strips either. -/
theorem C2_counterexample_no_lowercase_on_miss :
    team_mapping.lookup (pyLower "Spurs") = Option.none ∧
    normalize_team_name "Spurs" = "Spurs" ∧
    normalize_team_name "Spurs" ≠ pyLower "Spurs" := by decide

/-- C2 (amended): the normalizer looks up the lower-cased (not stripped)
input in the static alias table; on a hit it returns the canonical key and
on a miss it returns the original input unchanged (not lower-cased).  It is
a total pure function on strings, including the empty string. -/
theorem C2_normalize_team_names_amended :
    (∀ x c, team_mapping.lookup (pyLower x) = some c →
      normalize_team_name x = c) ∧
    (∀ x, team_mapping.lookup (pyLower x) = Option.none →
      normalize_team_name x = x) ∧
    normalize_team_name "" = "" := by
  refine ⟨fun x c h => ?_, fun x h => ?_, by decide⟩
  · rw [normalize_team_name, h]
    rfl
  · rw [normalize_team_name, h]
    rfl

/-- C2 witness: the amended contract evaluated on a hit ("Manchester
United") and on a miss ("Arsenal"). -/
theorem C2_witness :
    normalize_team_name "Manchester United" = "man utd" ∧
    normalize_team_name "Arsenal" = "Arsenal" :=
  ⟨C2_normalize_team_names_amended.1 "Manchester United" "man utd" (by decide),
   C2_normalize_team_names_amended.2.1 "Arsenal" (by decide)⟩

/-- C9: the automated pass never removes a matched secondary record from
the candidate pool, so two distinct primary records can both map to the
same secondary id.  Concrete run: both FPL rows match the single Understat
row "u1". -/
theorem C9_secondary_reused_across_primaries :
    map_players [⟨1, "Salah", "Arsenal"⟩, ⟨2, "Salah", "Arsenal"⟩]
      [⟨"u1", "Salah", "Arsenal"⟩] [] (4 / 5) =
    .ok [⟨1, "u1", "Salah", "Salah", "automated", 1⟩,
         ⟨2, "u1", "Salah", "Salah", "automated", 1⟩] ∧
    (1 : Int) ≠ 2 := by with_unfolding_all decide

/-- C5 counterexample: with unique table ids, the overlay `{"5": "a",
"05": "b"}` (two distinct dict keys that both parse to the integer 5)
produces two mapping entries carrying the same primary id 5, so a
primary_id can appear in more than one entry. -/
theorem C5_counterexample_duplicate_primary_id :
    ("5" : String) ≠ "05" ∧
    map_players [⟨5, "Mohamed Salah", "Liverpool"⟩]
      [⟨"a", "X", "T1"⟩, ⟨"b", "Y", "T2"⟩]
      [("5", "a"), ("05", "b")] (4 / 5) =
    .ok [⟨5, "a", "Mohamed Salah", "X", "manual", 1⟩,
         ⟨5, "b", "Mohamed Salah", "Y", "manual", 1⟩] := by
  with_unfolding_all decide

/-- C3 counterexample: with threshold 0 and two same-team players with
completely disjoint names, the similarity is exactly equal to the
threshold, yet no mapping entry is emitted (the run even raises the C1
`KeyError` because the mapping table stays empty): the best-candidate fold
only replaces on strictly positive similarity. -/
theorem C3_counterexample_zero_threshold :
    get_name_similarity "ab" "cd" = 0 ∧
    map_players [⟨1, "ab", "Arsenal"⟩] [⟨"u1", "cd", "Arsenal"⟩] [] 0 =
      .error .keyError := by with_unfolding_all decide

/-- C4: a secondary id consumed by any manual-mapping value is excluded
from the automated candidate pool, so no automated mapping entry ever
carries it — even when automated scoring would have preferred that
secondary record for another primary. -/
theorem C4_manual_values_excluded_from_automated :
    ∀ (fpl : List FplPlayer) (ust : List UstPlayer)
      (manual : List (String × String)) (thr : ℚ) (res : List MapEntry),
      map_players fpl ust manual thr = .ok res →
      ∀ e ∈ res, e.matching_type = "automated" →
        ∀ kv ∈ manual, e.understat_id ≠ kv.2 := by
  intro fpl ust manual thr res h e he hty kv hkv
  rcases map_players_ok _ _ _ _ _ h with rfl | ⟨parsed, hp, rfl⟩
  · cases he
  · rcases List.mem_append.mp he with hm | ha
    · obtain ⟨iv, _, p, _, u, _, rfl⟩ := manualEntries_mem _ _ _ _ hm
      simp at hty
    · obtain ⟨p, hpmem, hauto⟩ := autoEntries_mem _ _ _ _ ha
      obtain ⟨_, _, _, _, _, u, humem, _, hid, _, _⟩ :=
        autoEntryFor_some _ _ _ _ hauto
      obtain ⟨_, hnot⟩ := remainingUst_mem _ _ _ humem
      intro heq
      apply hnot kv hkv
      rw [← hid]
      exact heq

/-- C4 witness: in a run where the overlay consumes "u1" for primary 1,
the automated entry produced for primary 2 carries "u2", not "u1". -/
theorem C4_witness : ("u2" : String) ≠ "u1" :=
  C4_manual_values_excluded_from_automated
    [⟨1, "Kane", "Spurs"⟩, ⟨2, "Salah", "Arsenal"⟩]
    [⟨"u1", "Kane", "X"⟩, ⟨"u2", "Salah", "Arsenal"⟩]
    [("1", "u1")] (1 / 2)
    [⟨1, "u1", "Kane", "Kane", "manual", 1⟩,
     ⟨2, "u2", "Salah", "Salah", "automated", 1⟩]
    (by with_unfolding_all decide)
    ⟨2, "u2", "Salah", "Salah", "automated", 1⟩
    (by with_unfolding_all decide) rfl ("1", "u1") (by decide)

/-- C7: a missing or unreadable/corrupt manual-mapping file loads as the
empty overlay, and a run over that empty overlay proceeds with automated
logic only: every entry of the result is an automated entry. -/
theorem C7_load_failure_degrades_to_empty_overlay :
    ∀ fs : MappingFile, (fs = .missing ∨ fs = .unreadable) →
      load_mappings fs = [] ∧
      ∀ (fpl : List FplPlayer) (ust : List UstPlayer) (thr : ℚ)
        (res : List MapEntry),
        map_players fpl ust (load_mappings fs) thr = .ok res →
        ∀ e ∈ res, e.matching_type = "automated" := by
  intro fs hfs
  have hload : load_mappings fs = [] := by
    rcases hfs with rfl | rfl <;> rfl
  refine ⟨hload, ?_⟩
  intro fpl ust thr res h e he
  rw [hload] at h
  rcases map_players_ok _ _ _ _ _ h with rfl | ⟨parsed, hp, rfl⟩
  · cases he
  · rw [parseManual_nil] at hp
    cases hp
    rw [manualEntries_nil, List.nil_append] at he
    obtain ⟨p, _, hauto⟩ := autoEntries_mem _ _ _ _ he
    exact (autoEntryFor_some _ _ _ _ hauto).2.2.1

/-- C7 witness: an unreadable overlay file loads as the empty overlay, and
the single entry of a concrete automated-only run is automated. -/
theorem C7_witness :
    load_mappings .unreadable = [] ∧
    MapEntry.matching_type ⟨1, "u1", "Salah", "Salah", "automated", 1⟩ =
      "automated" :=
  ⟨(C7_load_failure_degrades_to_empty_overlay .unreadable (Or.inr rfl)).1,
   (C7_load_failure_degrades_to_empty_overlay .unreadable (Or.inr rfl)).2
     [⟨1, "Salah", "Arsenal"⟩] [⟨"u1", "Salah", "Arsenal"⟩] 1
     [⟨1, "u1", "Salah", "Salah", "automated", 1⟩]
     (by with_unfolding_all decide)
     ⟨1, "u1", "Salah", "Salah", "automated", 1⟩
     (by with_unfolding_all decide)⟩

/-- C8: the name-similarity scorer is total on coerced Python values with
range [0, 1]; it returns exactly 1 for inputs identical after lower-casing
and trimming, and exactly 0 for inputs that share no character after
cleaning (with at least one of them non-empty).  As a Lean function it is
pure and deterministic by construction. -/
theorem C8_similarity_contract :
    (∀ a b : PyVal,
      0 ≤ get_name_similarity_py a b ∧ get_name_similarity_py a b ≤ 1) ∧
    (∀ n1 n2 : String, cleanName n1 = cleanName n2 →
      get_name_similarity n1 n2 = 1) ∧
    (∀ n1 n2 : String,
      (∀ c ∈ (cleanName n1).data, c ∉ (cleanName n2).data) →
      (cleanName n1).data.length + (cleanName n2).data.length ≠ 0 →
      get_name_similarity n1 n2 = 0) := by
  refine ⟨fun a b => ⟨?_, ?_⟩, fun n1 n2 h => ?_, fun n1 n2 h1 h2 => ?_⟩
  · exact similarityRatio_nonneg _ _
  · exact similarityRatio_le_one _ _
  · rw [get_name_similarity, h]
    exact similarityRatio_self _
  · exact similarityRatio_disjoint _ _ h1 h2

/-- C8 witness: the contract evaluated at a non-string pair, at two strings
identical after cleaning, and at two disjoint strings. -/
theorem C8_witness :
    (0 ≤ get_name_similarity_py (.int 7) .noneV ∧
      get_name_similarity_py (.int 7) .noneV ≤ 1) ∧
    get_name_similarity "  Salah " "salah" = 1 ∧
    get_name_similarity "ab" "cd" = 0 :=
  ⟨C8_similarity_contract.1 (.int 7) .noneV,
   C8_similarity_contract.2.1 "  Salah " "salah" (by decide),
   C8_similarity_contract.2.2 "ab" "cd" (by decide) (by decide)⟩

theorem nodup_map_inj {α β : Type} (f : α → β) (l : List α)
    (h : (l.map f).Nodup) :
    ∀ x ∈ l, ∀ y ∈ l, f x = f y → x = y := by
  induction l with
  | nil => intro x hx; cases hx
  | cons a rest ih =>
    rw [List.map_cons, List.nodup_cons] at h
    obtain ⟨hni, hrest⟩ := h
    intro x hx y hy hf
    rcases List.mem_cons.mp hx with rfl | hx' <;>
      rcases List.mem_cons.mp hy with rfl | hy'
    · rfl
    · exact absurd (hf ▸ List.mem_map_of_mem f hy') hni
    · exact absurd (hf ▸ List.mem_map_of_mem f hx') (by exact fun hm => hni hm)
    · exact ih hrest x hx' y hy' hf

/-- C6: two players whose normalized team keys differ are never matched by
the automated pass, whatever their names: every automated entry pairs rows
with equal normalized teams, so under unique source ids no automated entry
can link a primary and a secondary row with different normalized teams. -/
theorem C6_team_isolation :
    ∀ (fpl : List FplPlayer) (ust : List UstPlayer)
      (manual : List (String × String)) (thr : ℚ) (res : List MapEntry),
      map_players fpl ust manual thr = .ok res →
      (fpl.map FplPlayer.id).Nodup → (ust.map UstPlayer.id).Nodup →
      ∀ p ∈ fpl, ∀ u ∈ ust,
        normalize_team_name p.team ≠ normalize_team_name u.team →
        ∀ e ∈ res,
          ¬(e.matching_type = "automated" ∧ e.fpl_id = p.id ∧
            e.understat_id = u.id) := by
  intro fpl ust manual thr res h hnf hnu p hp u hu hne e he hconj
  obtain ⟨hty, hfid, huid⟩ := hconj
  rcases map_players_ok _ _ _ _ _ h with rfl | ⟨parsed, hparse, rfl⟩
  · cases he
  · rcases List.mem_append.mp he with hm | ha
    · obtain ⟨iv, _, q, _, w, _, rfl⟩ := manualEntries_mem _ _ _ _ hm
      simp at hty
    · obtain ⟨p', hprem, hauto⟩ := autoEntries_mem _ _ _ _ ha
      obtain ⟨hfid', _, _, _, _, u', hurem, hteam, huid', _, _⟩ :=
        autoEntryFor_some _ _ _ _ hauto
      have hpmem : p' ∈ fpl := (remainingFpl_mem _ _ _ hprem).1
      have humem : u' ∈ ust := (remainingUst_mem _ _ _ hurem).1
      have hpeq : p' = p :=
        nodup_map_inj FplPlayer.id fpl hnf p' hpmem p hp (by rw [← hfid', hfid])
      have hueq : u' = u :=
        nodup_map_inj UstPlayer.id ust hnu u' humem u hu (by rw [← huid', huid])
      apply hne
      rw [← hpeq, ← hueq]
      exact hteam.symm

/-- C6 witness: identically named players on different normalized teams
("Kane" on Arsenal vs "Kane" on Chelsea) are not linked by the automated
entry of a concrete run. -/
theorem C6_witness :
    ¬(MapEntry.matching_type ⟨2, "u2", "Son", "Son", "automated", 1⟩ =
        "automated" ∧
      MapEntry.fpl_id ⟨2, "u2", "Son", "Son", "automated", 1⟩ =
        FplPlayer.id ⟨1, "Kane", "Arsenal"⟩ ∧
      MapEntry.understat_id ⟨2, "u2", "Son", "Son", "automated", 1⟩ =
        UstPlayer.id ⟨"u1", "Kane", "Chelsea"⟩) :=
  C6_team_isolation [⟨1, "Kane", "Arsenal"⟩, ⟨2, "Son", "Chelsea"⟩]
    [⟨"u1", "Kane", "Chelsea"⟩, ⟨"u2", "Son", "Chelsea"⟩] [] (1 / 2)
    [⟨2, "u2", "Son", "Son", "automated", 1⟩]
    (by with_unfolding_all decide) (by decide) (by decide)
    ⟨1, "Kane", "Arsenal"⟩ (by decide) ⟨"u1", "Kane", "Chelsea"⟩ (by decide)
    (by decide) ⟨2, "u2", "Son", "Son", "automated", 1⟩ (by decide)

/-- C10: a primary id appearing as an overlay key is excluded from the
automated pass even when every overlay pair for that id is stale (its
secondary id is absent from the secondary table), in which case that
primary receives no mapping entry at all; symmetrically, a secondary id
appearing as an overlay value is withheld from the automated candidate
pool even when its paired primary id is absent from the primary table. -/
theorem C10_stale_overlay_still_excludes :
    ∀ (fpl : List FplPlayer) (ust : List UstPlayer)
      (manual : List (String × String)) (thr : ℚ) (res : List MapEntry),
      map_players fpl ust manual thr = .ok res →
      (∀ kv ∈ manual, ∀ i : Int, parsePyInt kv.1 = some i →
        (∀ kv' ∈ manual, ∀ i' : Int, parsePyInt kv'.1 = some i' → i' = i →
          ∀ u ∈ ust, u.id ≠ kv'.2) →
        ∀ e ∈ res, e.fpl_id ≠ i) ∧
      (∀ kv ∈ manual,
        (∀ i : Int, parsePyInt kv.1 = some i → ∀ p ∈ fpl, p.id ≠ i) →
        ∀ e ∈ res, e.matching_type = "automated" → e.understat_id ≠ kv.2) := by
  intro fpl ust manual thr res h
  rcases map_players_ok _ _ _ _ _ h with rfl | ⟨parsed, hparse, rfl⟩
  · constructor
    · intro kv _ i _ _ e he
      cases he
    · intro kv _ _ e he
      cases he
  · constructor
    · intro kv hkv i hpi hstale e he hfi
      rcases List.mem_append.mp he with hm | ha
      · obtain ⟨iv, hivp, q, hqfind, w, hwfind, rfl⟩ :=
          manualEntries_mem _ _ _ _ hm
        obtain ⟨kv', hkv', hpk', hvk'⟩ := parseManual_mem_rev _ _ hparse iv hivp
        obtain ⟨hwmem, hwid⟩ := find?_id_ust _ _ _ hwfind
        exact hstale kv' hkv' iv.1 hpk' hfi w hwmem (by rw [hwid, ← hvk'])
      · obtain ⟨q, hqrem, hauto⟩ := autoEntries_mem _ _ _ _ ha
        have hfid := (autoEntryFor_some _ _ _ _ hauto).1
        obtain ⟨_, hnot⟩ := remainingFpl_mem _ _ _ hqrem
        exact hnot (i, kv.2) (parseManual_mem_fwd _ _ hparse kv hkv i hpi)
          (by rw [← hfid]; exact hfi)
    · intro kv hkv _ e he hty
      rcases List.mem_append.mp he with hm | ha
      · obtain ⟨iv, _, q, _, w, _, rfl⟩ := manualEntries_mem _ _ _ _ hm
        simp at hty
      · obtain ⟨q, _, hauto⟩ := autoEntries_mem _ _ _ _ ha
        obtain ⟨_, _, _, _, _, u', hurem, _, hid, _, _⟩ :=
          autoEntryFor_some _ _ _ _ hauto
        obtain ⟨_, hnot⟩ := remainingUst_mem _ _ _ hurem
        intro heq
        exact hnot kv hkv (by rw [← hid]; exact heq)

/-- C10 witness: with a stale overlay pair ("7" → "zz", "zz" absent), the
only entry is automated and does not carry primary 7; with an orphaned
overlay pair ("99" → "u9", 99 absent), the automated entry does not carry
"u9". -/
theorem C10_witness : (2 : Int) ≠ 7 ∧ ("u2" : String) ≠ "u9" :=
  ⟨(C10_stale_overlay_still_excludes
      [⟨7, "Kane", "Spurs"⟩, ⟨2, "Salah", "Arsenal"⟩]
      [⟨"u2", "Salah", "Arsenal"⟩] [("7", "zz")] (1 / 2)
      [⟨2, "u2", "Salah", "Salah", "automated", 1⟩]
      (by with_unfolding_all decide)).1
    ("7", "zz") (by decide) 7 (by decide)
    (by
      intro kv' hkv' i' hpi' hi' u hu
      rcases List.mem_singleton.mp hkv'
      rcases List.mem_singleton.mp hu
      decide)
    ⟨2, "u2", "Salah", "Salah", "automated", 1⟩ (by decide),
   (C10_stale_overlay_still_excludes
      [⟨2, "Salah", "Arsenal"⟩]
      [⟨"u2", "Salah", "Arsenal"⟩, ⟨"u9", "X", "Y"⟩] [("99", "u9")] (1 / 2)
      [⟨2, "u2", "Salah", "Salah", "automated", 1⟩]
      (by with_unfolding_all decide)).2
    ("99", "u9") (by decide)
    (by
      intro i hi p hp
      have h99 : parsePyInt "99" = some 99 := by decide
      rw [h99] at hi
      cases hi
      rcases List.mem_singleton.mp hp
      decide)
    ⟨2, "u2", "Salah", "Salah", "automated", 1⟩ (by decide) rfl⟩

/-- C5 (amended): when source ids are unique within their tables AND the
overlay keys parse to pairwise distinct integers (as canonical decimal
keys do), no primary id appears in more than one entry of the returned
mapping table. -/
theorem C5_exclusivity_amended :
    ∀ (fpl : List FplPlayer) (ust : List UstPlayer)
      (manual : List (String × String)) (thr : ℚ) (res : List MapEntry)
      (parsed : List (Int × String)),
      map_players fpl ust manual thr = .ok res →
      parseManual manual = some parsed →
      (fpl.map FplPlayer.id).Nodup →
      (parsed.map Prod.fst).Nodup →
      (res.map MapEntry.fpl_id).Nodup := by
  intro fpl ust manual thr res parsed h hparse hnf hnp
  rcases map_players_ok _ _ _ _ _ h with rfl | ⟨parsed', hparse', rfl⟩
  · simp
  · rw [hparse] at hparse'
    cases hparse'
    rw [List.map_append]
    have hman : ((manualEntries fpl ust parsed).map MapEntry.fpl_id).Nodup := by
      rw [manualEntries]
      refine nodup_filterMap_ids _ MapEntry.fpl_id Prod.fst ?_ parsed hnp
      intro iv e hf
      split at hf
      · split at hf
        · cases hf
          rfl
        · cases hf
      · cases hf
    have hauto :
        ((autoEntries thr (remainingUst ust manual)
          (remainingFpl fpl parsed)).map MapEntry.fpl_id).Nodup := by
      rw [autoEntries]
      refine nodup_filterMap_ids _ MapEntry.fpl_id FplPlayer.id
        (fun p e hf => (autoEntryFor_some _ _ _ _ hf).1) _ ?_
      have hsub : List.Sublist (remainingFpl fpl parsed) fpl :=
        List.filter_sublist _
      exact hnf.sublist (hsub.map FplPlayer.id)
    refine List.nodup_append.mpr ⟨hman, hauto, ?_⟩
    intro x hx1 hx2
    rw [List.mem_map] at hx1 hx2
    obtain ⟨e1, he1, rfl⟩ := hx1
    obtain ⟨e2, he2, hx⟩ := hx2
    have h1 := manualEntries_id_sub _ _ _ _ he1
    obtain ⟨p, hprem, hauto2⟩ := autoEntries_mem _ _ _ _ he2
    have h2 : e2.fpl_id = p.id := (autoEntryFor_some _ _ _ _ hauto2).1
    obtain ⟨_, hnot⟩ := remainingFpl_mem _ _ _ hprem
    rw [List.mem_map] at h1
    obtain ⟨iv, hiv, hid⟩ := h1
    exact hnot iv hiv (by rw [← h2, hx, ← hid])

/-- C5 witness: the amended exclusivity evaluated on a concrete run with a
manual entry for primary 1 and an automated entry for primary 2. -/
theorem C5_witness :
    (([⟨1, "u1", "Kane", "Kane", "manual", 1⟩,
       ⟨2, "u2", "Salah", "Salah", "automated", 1⟩] :
        List MapEntry).map MapEntry.fpl_id).Nodup :=
  C5_exclusivity_amended
    [⟨1, "Kane", "Spurs"⟩, ⟨2, "Salah", "Arsenal"⟩]
    [⟨"u1", "Kane", "X"⟩, ⟨"u2", "Salah", "Arsenal"⟩]
    [("1", "u1")] (1 / 2)
    [⟨1, "u1", "Kane", "Kane", "manual", 1⟩,
     ⟨2, "u2", "Salah", "Salah", "automated", 1⟩]
    [(1, "u1")]
    (by with_unfolding_all decide) (by decide) (by decide) (by decide)

theorem autoEntryFor_single (thr : ℚ) (p : FplPlayer) (s : UstPlayer)
    (hteam : normalize_team_name p.team = normalize_team_name s.team)
    (hsim : get_name_similarity p.name s.name = thr) (hthr : 0 < thr) :
    autoEntryFor thr [s] p =
      some ⟨p.id, s.id, p.name, s.name, "automated", thr⟩ := by
  rw [autoEntryFor]
  have hfil : [s].filter
      (fun u => normalize_team_name u.team == normalize_team_name p.team) =
      [s] := by
    simp [List.filter_cons, hteam]
  rw [hfil, bestCand, List.foldl_cons, List.foldl_nil, bestStep]
  rw [hsim]
  rw [if_pos (by simpa using hthr)]
  simp

/-- C3 (amended): a same-team pair whose similarity is exactly the
threshold IS emitted provided that similarity is positive (acceptance is
`≥`, but a zero similarity never replaces the initial best); and every
automated entry of any successful run carries a similarity that is at
least the threshold and equal to the similarity of the recorded names, so
a pair whose similarity is strictly below the threshold is never
emitted. -/
theorem C3_threshold_boundary_amended :
    (∀ (p : FplPlayer) (s : UstPlayer) (thr : ℚ),
      normalize_team_name p.team = normalize_team_name s.team →
      get_name_similarity p.name s.name = thr → 0 < thr →
      map_players [p] [s] [] thr =
        .ok [⟨p.id, s.id, p.name, s.name, "automated", thr⟩]) ∧
    (∀ (fpl : List FplPlayer) (ust : List UstPlayer)
      (manual : List (String × String)) (thr : ℚ) (res : List MapEntry),
      map_players fpl ust manual thr = .ok res →
      ∀ e ∈ res, e.matching_type = "automated" →
        thr ≤ e.similarity ∧
        e.similarity = get_name_similarity e.fpl_name e.understat_name) := by
  constructor
  · intro p s thr hteam hsim hthr
    rw [map_players, if_neg (by simp), parseManual_nil]
    dsimp only
    rw [manualEntries_nil, remainingUst_nil, remainingFpl_nil,
      List.nil_append, autoEntries, List.filterMap_cons,
      autoEntryFor_single thr p s hteam hsim hthr]
    simp
  · intro fpl ust manual thr res h e he hty
    rcases map_players_ok _ _ _ _ _ h with rfl | ⟨parsed, hparse, rfl⟩
    · cases he
    · rcases List.mem_append.mp he with hm | ha
      · obtain ⟨iv, _, q, _, w, _, rfl⟩ := manualEntries_mem _ _ _ _ hm
        simp at hty
      · obtain ⟨p, _, hauto⟩ := autoEntries_mem _ _ _ _ ha
        obtain ⟨_, hname, _, hthr', _, u, _, _, _, huname, hsim⟩ :=
          autoEntryFor_some _ _ _ _ hauto
        exact ⟨hthr', by rw [hsim, hname, huname]⟩

/-- C3 witness: the boundary case evaluated at similarity = threshold = 1
(emitted), and the automated-entry bound evaluated on that same run. -/
theorem C3_witness :
    map_players [⟨1, "Salah", "Arsenal"⟩] [⟨"u1", "Salah", "Arsenal"⟩] [] 1 =
      .ok [⟨1, "u1", "Salah", "Salah", "automated", 1⟩] :=
  C3_threshold_boundary_amended.1 ⟨1, "Salah", "Arsenal"⟩
    ⟨"u1", "Salah", "Arsenal"⟩ 1 rfl (by with_unfolding_all decide)
    (by norm_num)

end FPL
